import Mathlib

/-!
Verification of the backprop expression-tree program (src/main.rs).

The program builds an arithmetic expression tree out of named leaf
constants (`ConstVal`), sum nodes (`AddFunc`) and product nodes
(`MultiplyFunc`).  Every node implements the trait `Function` with three
methods: `compute_value` (evaluate, caching each child's value in the
operator node's `val1`/`val2` fields), `derivative_over` (partial
derivative with respect to a leaf name, panicking when the name is not
found), and `has_node` (membership test for a leaf name).

Embedding choices:
* `f64` is modelled by `ℚ`; the only operations performed are `+` and `*`
  on the stored constants, and every claim compares the results of the
  same arithmetic on both sides.
* `compute_value` takes `&mut self` in Rust (it writes the caches), so it
  is embedded as a function returning the result pair together with the
  updated tree.  `derivative_over` and `has_node` take `&self` and are
  embedded as pure reads.
* `panic!("Not found: ...")` in `derivative_over` is embedded as `none`;
  a successful return is `some`.
* `MultiplyFunc` additionally holds a field `op_set: HashSet<String>`,
  which is created empty in `MultiplyFunc::new` and never read or
  written anywhere; it is omitted from the embedding.
* The `name` field of `AddFunc`/`MultiplyFunc` is kept (it is set by the
  constructors) even though no method reads it.
-/

namespace Backprop

abbrev Value := ℚ

/-- The expression tree: `ConstVal`, `AddFunc` and `MultiplyFunc` from
src/main.rs, as a closed sum type.  Operator nodes carry their cached
child values `val1`, `val2` and their diagnostic `name`. -/
inductive Node where
  | constVal (val : Value) (name : String)
  | addFunc (op1 op2 : Node) (val1 val2 : Value) (name : String)
  | multiplyFunc (op1 op2 : Node) (val1 val2 : Value) (name : String)
deriving DecidableEq, Repr

/-- Constructor `ConstVal::new(v, name)`. -/
def ConstVal.new (v : Value) (name : String) : Node :=
  .constVal v name

/-- Constructor `AddFunc::new(op1, op2, name)`: caches start at `0_f64`. -/
def AddFunc.new (op1 op2 : Node) (name : String) : Node :=
  .addFunc op1 op2 0 0 name

/-- Constructor `MultiplyFunc::new(op1, op2, name)`: caches start at
`0_f64`. -/
def MultiplyFunc.new (op1 op2 : Node) (name : String) : Node :=
  .multiplyFunc op1 op2 0 0 name

/-- Method `has_node` of each `Function` impl: a leaf tests its own name,
an operator node tests `op1.has_node(..) || op2.has_node(..)`. -/
def Node.has_node : Node → String → Bool
  | .constVal _ name, node_name => name == node_name
  | .addFunc op1 op2 _ _ _, node_name =>
      op1.has_node node_name || op2.has_node node_name
  | .multiplyFunc op1 op2 _ _ _, node_name =>
      op1.has_node node_name || op2.has_node node_name

/-- Method `derivative_over` of each `Function` impl.  A leaf returns
`1_f64` when it owns the name and panics (`none`) otherwise.  `AddFunc`
returns `1_f64 * op1.derivative_over(..)` when `op1` has the name, else
`1_f64 * op2.derivative_over(..)` when `op2` has it, else panics.
`MultiplyFunc` is the same with the cached sibling value in place of
`1_f64`: `self.val2 * op1.derivative_over(..)` resp.
`self.val1 * op2.derivative_over(..)`. -/
def Node.derivative_over : Node → String → Option Value
  | .constVal _ name, node_name =>
      if name == node_name then some 1 else none
  | .addFunc op1 op2 _ _ _, node_name =>
      if op1.has_node node_name then
        (op1.derivative_over node_name).map (fun d => 1 * d)
      else if op2.has_node node_name then
        (op2.derivative_over node_name).map (fun d => 1 * d)
      else none
  | .multiplyFunc op1 op2 val1 val2 _, node_name =>
      if op1.has_node node_name then
        (op1.derivative_over node_name).map (fun d => val2 * d)
      else if op2.has_node node_name then
        (op2.derivative_over node_name).map (fun d => val1 * d)
      else none

/-- Method `compute_value` of each `Function` impl.  A leaf returns its
singleton name list and its value.  An operator node evaluates `op1`,
then `op2`, appends the two name lists (`op1` names first), stores
`val1`/`val2` into its caches, and returns the sum resp. product of the
two values.  Since the Rust method takes `&mut self`, the embedding also
returns the updated tree.  (The Rust code evaluates each child exactly
once and binds the results; the repeated projections below denote those
same two results.) -/
def Node.compute_value : Node → (List String × Value) × Node
  | .constVal val name => (([name], val), .constVal val name)
  | .addFunc op1 op2 _ _ name =>
      ((op1.compute_value.1.1 ++ op2.compute_value.1.1,
        op1.compute_value.1.2 + op2.compute_value.1.2),
       .addFunc op1.compute_value.2 op2.compute_value.2
         op1.compute_value.1.2 op2.compute_value.1.2 name)
  | .multiplyFunc op1 op2 _ _ name =>
      ((op1.compute_value.1.1 ++ op2.compute_value.1.1,
        op1.compute_value.1.2 * op2.compute_value.1.2),
       .multiplyFunc op1.compute_value.2 op2.compute_value.2
         op1.compute_value.1.2 op2.compute_value.1.2 name)

/-- The list of leaf names of a subtree, in left-to-right order.  This is
the spec-side notion "the name of some leaf in the subtree" used to state
the `contains` claim. -/
def Node.leafNames : Node → List String
  | .constVal _ name => [name]
  | .addFunc op1 op2 _ _ _ => op1.leafNames ++ op2.leafNames
  | .multiplyFunc op1 op2 _ _ _ => op1.leafNames ++ op2.leafNames

/-- The cache-free skeleton of a node: leaf values, names and the tree
shape, with the `val1`/`val2` caches erased.  Used to state what
`compute_value` leaves untouched. -/
inductive Shape where
  | constVal (val : Value) (name : String)
  | addFunc (op1 op2 : Shape) (name : String)
  | multiplyFunc (op1 op2 : Shape) (name : String)
deriving DecidableEq, Repr

/-- Erase the `val1`/`val2` caches of every operator node. -/
def Node.strip : Node → Shape
  | .constVal val name => .constVal val name
  | .addFunc op1 op2 _ _ name => .addFunc op1.strip op2.strip name
  | .multiplyFunc op1 op2 _ _ name => .multiplyFunc op1.strip op2.strip name

/-- The tree wired up in `main`: leaves `A = 10`, `B = 5`, `C = 20`,
`D = 25`. -/
def exA : Node := ConstVal.new 10 "A"

/-- Leaf `b` of `main`. -/
def exB : Node := ConstVal.new 5 "B"

/-- Leaf `c` of `main`. -/
def exC : Node := ConstVal.new 20 "C"

/-- Leaf `d` of `main`. -/
def exD : Node := ConstVal.new 25 "D"

/-- Node `f1 = AddFunc::new(a, b, "A+B")` of `main`. -/
def exF1 : Node := AddFunc.new exA exB "A+B"

/-- Node `f2 = MultiplyFunc::new(f1, c, "(A+B)C")` of `main`. -/
def exF2 : Node := MultiplyFunc.new exF1 exC "(A+B)C"

/-- Node `f_end = MultiplyFunc::new(f2, d, "(A+B)CD")` of `main`. -/
def exFend : Node := MultiplyFunc.new exF2 exD "(A+B)CD"

/-- Structural size of a tree; every method of the `Function` trait
recurses only into the two children, so `size` bounds the depth of every
call stack the program builds. -/
def Node.size : Node → Nat
  | .constVal _ _ => 1
  | .addFunc op1 op2 _ _ _ => op1.size + op2.size + 1
  | .multiplyFunc op1 op2 _ _ _ => op1.size + op2.size + 1

/-- Fuel-indexed variant of `has_node`: one unit of fuel per call, the
recursive calls go only to the two children, `none` means the fuel ran
out.  Used to state that the recursion in the source terminates. -/
def Node.has_nodeF : Nat → Node → String → Option Bool
  | 0, _, _ => none
  | _ + 1, .constVal _ name, node_name => some (name == node_name)
  | f + 1, .addFunc op1 op2 _ _ _, node_name =>
      match has_nodeF f op1 node_name with
      | none => none
      | some true => some true
      | some false => has_nodeF f op2 node_name
  | f + 1, .multiplyFunc op1 op2 _ _ _, node_name =>
      match has_nodeF f op1 node_name with
      | none => none
      | some true => some true
      | some false => has_nodeF f op2 node_name

/-- Fuel-indexed variant of `derivative_over` (outer `none` = fuel ran
out, inner `none` = the source's panic). -/
def Node.derivative_overF : Nat → Node → String → Option (Option Value)
  | 0, _, _ => none
  | _ + 1, .constVal _ name, node_name =>
      some (if name == node_name then some 1 else none)
  | f + 1, .addFunc op1 op2 _ _ _, node_name =>
      match Node.has_nodeF f op1 node_name with
      | none => none
      | some true =>
          (derivative_overF f op1 node_name).map (Option.map (fun d => 1 * d))
      | some false =>
          match Node.has_nodeF f op2 node_name with
          | none => none
          | some true =>
              (derivative_overF f op2 node_name).map (Option.map (fun d => 1 * d))
          | some false => some none
  | f + 1, .multiplyFunc op1 op2 val1 val2 _, node_name =>
      match Node.has_nodeF f op1 node_name with
      | none => none
      | some true =>
          (derivative_overF f op1 node_name).map (Option.map (fun d => val2 * d))
      | some false =>
          match Node.has_nodeF f op2 node_name with
          | none => none
          | some true =>
              (derivative_overF f op2 node_name).map (Option.map (fun d => val1 * d))
          | some false => some none

/-- Fuel-indexed variant of `compute_value`. -/
def Node.compute_valueF : Nat → Node → Option ((List String × Value) × Node)
  | 0, _ => none
  | _ + 1, .constVal val name => some (([name], val), .constVal val name)
  | f + 1, .addFunc op1 op2 _ _ name =>
      match compute_valueF f op1, compute_valueF f op2 with
      | some ((ns1, val1), op1'), some ((ns2, val2), op2') =>
          some ((ns1 ++ ns2, val1 + val2), .addFunc op1' op2' val1 val2 name)
      | _, _ => none
  | f + 1, .multiplyFunc op1 op2 _ _ name =>
      match compute_valueF f op1, compute_valueF f op2 with
      | some ((ns1, val1), op1'), some ((ns2, val2), op2') =>
          some ((ns1 ++ ns2, val1 * val2), .multiplyFunc op1' op2' val1 val2 name)
      | _, _ => none

/-- An API call against the tree, as issued through the `Function` trait:
`eval` is the `&mut self` method `compute_value`, while `deriv` and `has`
are the `&self` methods `derivative_over` and `has_node`, which under
Rust's borrow discipline (no interior mutability is used) cannot write
the tree and are therefore embedded as pure reads. -/
inductive Op where
  | eval
  | deriv (n : String)
  | has (n : String)
deriving DecidableEq, Repr

/-- The tree state after one trait-method call: only `eval` replaces the
tree (with the cache-updated tree `compute_value` produces). -/
def applyOp : Node → Op → Node
  | t, .eval => t.compute_value.2
  | t, .deriv _ => t
  | t, .has _ => t

/-- The tree state after a sequence of trait-method calls. -/
def applyOps (t : Node) (ops : List Op) : Node :=
  ops.foldl applyOp t

/-- Evaluation only writes the caches: the skeleton of the updated tree
is the skeleton of the input. -/
theorem strip_compute_value (t : Node) :
    t.compute_value.2.strip = t.strip := by
  induction t with
  | constVal val name => rfl
  | addFunc op1 op2 v1 v2 name ih1 ih2 =>
      simp [Node.compute_value, Node.strip, ih1, ih2]
  | multiplyFunc op1 op2 v1 v2 name ih1 ih2 =>
      simp [Node.compute_value, Node.strip, ih1, ih2]

/-- Membership does not look at the caches, so evaluating the tree does
not change any `has_node` answer. -/
theorem has_node_compute_value (t : Node) (n : String) :
    t.compute_value.2.has_node n = t.has_node n := by
  induction t with
  | constVal val name => rfl
  | addFunc op1 op2 v1 v2 name ih1 ih2 =>
      simp [Node.compute_value, Node.has_node, ih1, ih2]
  | multiplyFunc op1 op2 v1 v2 name ih1 ih2 =>
      simp [Node.compute_value, Node.has_node, ih1, ih2]

/-- Derivatives succeed exactly on the names `has_node` reports: the
panic (`none`) happens iff the name is absent from the subtree. -/
theorem derivative_over_isSome (t : Node) (n : String) :
    (t.derivative_over n).isSome = t.has_node n := by
  induction t with
  | constVal val name =>
      by_cases h : (name == n) = true <;>
        simp [Node.derivative_over, Node.has_node, h]
  | addFunc op1 op2 v1 v2 name ih1 ih2 =>
      by_cases h1 : op1.has_node n <;> by_cases h2 : op2.has_node n <;>
        simp [Node.derivative_over, Node.has_node, h1, h2, ih1, ih2]
  | multiplyFunc op1 op2 v1 v2 name ih1 ih2 =>
      by_cases h1 : op1.has_node n <;> by_cases h2 : op2.has_node n <;>
        simp [Node.derivative_over, Node.has_node, h1, h2, ih1, ih2]

/-- Any fuel at least `size` is enough for `has_nodeF`. -/
theorem has_nodeF_eq (t : Node) :
    ∀ f : Nat, t.size ≤ f → ∀ n, Node.has_nodeF f t n = some (t.has_node n) := by
  induction t with
  | constVal val name =>
      intro f hf n
      cases f with
      | zero => simp [Node.size] at hf
      | succ f => rfl
  | addFunc op1 op2 v1 v2 name ih1 ih2 =>
      intro f hf n
      cases f with
      | zero => simp [Node.size] at hf
      | succ f =>
          have h1 : op1.size ≤ f := by simp [Node.size] at hf; omega
          have h2 : op2.size ≤ f := by simp [Node.size] at hf; omega
          simp only [Node.has_nodeF, ih1 f h1 n, ih2 f h2 n, Node.has_node]
          cases op1.has_node n <;> simp
  | multiplyFunc op1 op2 v1 v2 name ih1 ih2 =>
      intro f hf n
      cases f with
      | zero => simp [Node.size] at hf
      | succ f =>
          have h1 : op1.size ≤ f := by simp [Node.size] at hf; omega
          have h2 : op2.size ≤ f := by simp [Node.size] at hf; omega
          simp only [Node.has_nodeF, ih1 f h1 n, ih2 f h2 n, Node.has_node]
          cases op1.has_node n <;> simp

/-- Any fuel at least `size` is enough for `derivative_overF`. -/
theorem derivative_overF_eq (t : Node) :
    ∀ f : Nat, t.size ≤ f → ∀ n,
      Node.derivative_overF f t n = some (t.derivative_over n) := by
  induction t with
  | constVal val name =>
      intro f hf n
      cases f with
      | zero => simp [Node.size] at hf
      | succ f => rfl
  | addFunc op1 op2 v1 v2 name ih1 ih2 =>
      intro f hf n
      cases f with
      | zero => simp [Node.size] at hf
      | succ f =>
          have h1 : op1.size ≤ f := by simp [Node.size] at hf; omega
          have h2 : op2.size ≤ f := by simp [Node.size] at hf; omega
          simp only [Node.derivative_overF, has_nodeF_eq op1 f h1 n,
            has_nodeF_eq op2 f h2 n, ih1 f h1 n, ih2 f h2 n,
            Node.derivative_over]
          cases op1.has_node n <;> cases op2.has_node n <;> simp
  | multiplyFunc op1 op2 v1 v2 name ih1 ih2 =>
      intro f hf n
      cases f with
      | zero => simp [Node.size] at hf
      | succ f =>
          have h1 : op1.size ≤ f := by simp [Node.size] at hf; omega
          have h2 : op2.size ≤ f := by simp [Node.size] at hf; omega
          simp only [Node.derivative_overF, has_nodeF_eq op1 f h1 n,
            has_nodeF_eq op2 f h2 n, ih1 f h1 n, ih2 f h2 n,
            Node.derivative_over]
          cases op1.has_node n <;> cases op2.has_node n <;> simp

/-- Any fuel at least `size` is enough for `compute_valueF`. -/
theorem compute_valueF_eq (t : Node) :
    ∀ f : Nat, t.size ≤ f → Node.compute_valueF f t = some t.compute_value := by
  induction t with
  | constVal val name =>
      intro f hf
      cases f with
      | zero => simp [Node.size] at hf
      | succ f => rfl
  | addFunc op1 op2 v1 v2 name ih1 ih2 =>
      intro f hf
      cases f with
      | zero => simp [Node.size] at hf
      | succ f =>
          have h1 : op1.size ≤ f := by simp [Node.size] at hf; omega
          have h2 : op2.size ≤ f := by simp [Node.size] at hf; omega
          simp only [Node.compute_valueF, ih1 f h1, ih2 f h2,
            Node.compute_value]
  | multiplyFunc op1 op2 v1 v2 name ih1 ih2 =>
      intro f hf
      cases f with
      | zero => simp [Node.size] at hf
      | succ f =>
          have h1 : op1.size ≤ f := by simp [Node.size] at hf; omega
          have h2 : op2.size ≤ f := by simp [Node.size] at hf; omega
          simp only [Node.compute_valueF, ih1 f h1, ih2 f h2,
            Node.compute_value]

/-- C3: for every leaf with value `v` and name `nm`, `compute_value`
returns the singleton name list `[nm]` paired with `v` (and leaves the
leaf unchanged), `derivative_over nm` returns `1.0`, and
`derivative_over m` for any `m ≠ nm` fails (`UnknownVariable`, i.e. the
panic, embedded as `none`). -/
theorem constVal_spec (v : Value) (nm m : String) (h : m ≠ nm) :
    (Node.constVal v nm).compute_value = (([nm], v), .constVal v nm)
    ∧ (Node.constVal v nm).derivative_over nm = some 1
    ∧ (Node.constVal v nm).derivative_over m = none := by
  refine ⟨rfl, by simp [Node.derivative_over], ?_⟩
  simp [Node.derivative_over, Ne.symm h]

/-- Witness for C3 at `v = 5`, leaf name `"A"`, foreign name `"B"`. -/
theorem constVal_spec_witness :
    (Node.constVal 5 "A").compute_value = ((["A"], 5), .constVal 5 "A")
    ∧ (Node.constVal 5 "A").derivative_over "A" = some 1
    ∧ (Node.constVal 5 "A").derivative_over "B" = none :=
  constVal_spec 5 "A" "B" (by decide)

/-- C4: for every node and every name, `derivative_over` fails (panics,
embedded as `none`) iff the name occurs in no leaf reachable from the
node; when it fails no value at all is produced (`none` carries no
default). -/
theorem derivative_over_none_iff (t : Node) (n : String) :
    t.derivative_over n = none ↔ t.has_node n = false := by
  rw [← derivative_over_isSome t n]
  cases t.derivative_over n <;> simp

/-- C6: `has_node` (the `contains` test) answers `true` exactly on the
names of the leaves of the subtree, and `false` on every other name. -/
theorem has_node_iff_mem_leafNames (t : Node) (n : String) :
    t.has_node n = true ↔ n ∈ t.leafNames := by
  induction t with
  | constVal v name =>
      simp [Node.has_node, Node.leafNames]
      exact eq_comm
  | addFunc op1 op2 v1 v2 name ih1 ih2 =>
      simp [Node.has_node, Node.leafNames, ih1, ih2]
  | multiplyFunc op1 op2 v1 v2 name ih1 ih2 =>
      simp [Node.has_node, Node.leafNames, ih1, ih2]

/-- C8: evaluating an already evaluated tree returns the same
(names, value) pair again and leaves the tree in the same state. -/
theorem compute_value_idempotent (t : Node) :
    t.compute_value.2.compute_value = (t.compute_value.1, t.compute_value.2) := by
  induction t with
  | constVal v name => rfl
  | addFunc op1 op2 v1 v2 name ih1 ih2 =>
      simp [Node.compute_value, ih1, ih2]
  | multiplyFunc op1 op2 v1 v2 name ih1 ih2 =>
      simp [Node.compute_value, ih1, ih2]

/-- C5: a Sum node's `compute_value` evaluates both children, returns the
left child's names followed by the right child's together with the sum of
the two values, and stores the two child values in its caches; its
`derivative_over` returns the left child's derivative whenever the left
child contains the name (the left branch is checked first and wins even
on a name collision), and under disjoint leaf names returns the right
child's derivative when the right child contains the name. -/
theorem addFunc_spec (A B : Node) (v1 v2 : Value) (nm n : String) :
    (Node.addFunc A B v1 v2 nm).compute_value =
      ((A.compute_value.1.1 ++ B.compute_value.1.1,
        A.compute_value.1.2 + B.compute_value.1.2),
       .addFunc A.compute_value.2 B.compute_value.2
         A.compute_value.1.2 B.compute_value.1.2 nm)
    ∧ (A.has_node n = true →
        (Node.addFunc A B v1 v2 nm).derivative_over n = A.derivative_over n)
    ∧ ((∀ m, A.has_node m = true → B.has_node m = false) →
        B.has_node n = true →
        (Node.addFunc A B v1 v2 nm).derivative_over n = B.derivative_over n) := by
  refine ⟨rfl, ?_, ?_⟩
  · intro hA
    cases hd : A.derivative_over n <;>
      simp [Node.derivative_over, hA, hd]
  · intro hdisj hB
    have hA : A.has_node n = false := by
      cases hA : A.has_node n
      · rfl
      · simp [hdisj n hA] at hB
    cases hd : B.derivative_over n <;>
      simp [Node.derivative_over, hA, hB, hd]

/-- Witness for C5 with the leaves `A = 10` named `"A"` and `B = 5`
named `"B"`, querying the name `"B"`: the disjointness and membership
hypotheses of the right-branch clause are discharged concretely. -/
theorem addFunc_spec_witness :
    (Node.addFunc (.constVal 10 "A") (.constVal 5 "B") 0 0 "S").derivative_over "B" =
      (Node.constVal 5 "B").derivative_over "B" :=
  (addFunc_spec (.constVal 10 "A") (.constVal 5 "B") 0 0 "S" "B").2.2
    (fun m hm => by
      simp [Node.has_node] at hm ⊢
      subst hm
      decide)
    (by decide)

/-- C1: for a Product node over children with disjoint leaf names, after
`compute_value` has run on the Product node, `derivative_over n` is the
cached sibling value — which equals the sibling's evaluated value —
times the evaluated child's derivative: `value(B) * derivative_over(A, n)`
when `n` occurs in `A`, and `value(A) * derivative_over(B, n)` when `n`
occurs in `B`. -/
theorem multiplyFunc_product_rule (A B : Node) (v1 v2 : Value) (nm n : String)
    (hdisj : ∀ m, A.has_node m = true → B.has_node m = false) :
    (A.has_node n = true →
      (Node.multiplyFunc A B v1 v2 nm).compute_value.2.derivative_over n =
        (A.compute_value.2.derivative_over n).map
          (fun d => B.compute_value.1.2 * d))
    ∧ (B.has_node n = true →
      (Node.multiplyFunc A B v1 v2 nm).compute_value.2.derivative_over n =
        (B.compute_value.2.derivative_over n).map
          (fun d => A.compute_value.1.2 * d)) := by
  constructor
  · intro hA
    simp [Node.compute_value, Node.derivative_over, has_node_compute_value, hA]
  · intro hB
    have hA : A.has_node n = false := by
      cases hA : A.has_node n
      · rfl
      · simp [hdisj n hA] at hB
    simp [Node.compute_value, Node.derivative_over, has_node_compute_value,
      hA, hB]

/-- Witness for C1 with the leaves `A = 10` named `"A"`, `B = 5` named
`"B"`, at the name `"A"`: the disjointness and membership hypotheses are
discharged concretely. -/
theorem multiplyFunc_product_rule_witness :
    (Node.multiplyFunc (.constVal 10 "A") (.constVal 5 "B") 0 0 "M").compute_value.2.derivative_over "A" =
      ((Node.constVal 10 "A").compute_value.2.derivative_over "A").map
        (fun d => (Node.constVal 5 "B").compute_value.1.2 * d) :=
  (multiplyFunc_product_rule (.constVal 10 "A") (.constVal 5 "B") 0 0 "M" "A"
    (fun m hm => by
      simp [Node.has_node] at hm ⊢
      subst hm
      decide)).1 (by decide)

/-- C2: on a freshly constructed Product node (caches still at their
`MultiplyFunc::new` value `0`), `derivative_over` for any name contained
in one of the children raises no error: it returns the product of the
zero cached sibling value with the child's derivative, i.e. `some 0`. -/
theorem fresh_multiplyFunc_derivative (op1 op2 : Node) (nm n : String)
    (h : op1.has_node n = true ∨ op2.has_node n = true) :
    (MultiplyFunc.new op1 op2 nm).derivative_over n =
      (if op1.has_node n then op1.derivative_over n
       else op2.derivative_over n).map (fun d => 0 * d)
    ∧ (MultiplyFunc.new op1 op2 nm).derivative_over n = some 0 := by
  by_cases h1 : op1.has_node n = true
  · have hs : (op1.derivative_over n).isSome = true := by
      rw [derivative_over_isSome op1 n]; exact h1
    obtain ⟨d, hd⟩ := Option.isSome_iff_exists.mp hs
    constructor
    · simp [MultiplyFunc.new, Node.derivative_over, h1]
    · simp [MultiplyFunc.new, Node.derivative_over, h1, hd]
  · have h2 : op2.has_node n = true := h.resolve_left h1
    have hs : (op2.derivative_over n).isSome = true := by
      rw [derivative_over_isSome op2 n]; exact h2
    obtain ⟨d, hd⟩ := Option.isSome_iff_exists.mp hs
    constructor
    · simp [MultiplyFunc.new, Node.derivative_over, h1, h2]
    · simp [MultiplyFunc.new, Node.derivative_over, h1, h2, hd]

/-- Witness for C2: a fresh Product of the leaves `"A"` and `"B"`,
queried at `"B"`, returns `some 0` without an error. -/
theorem fresh_multiplyFunc_derivative_witness :
    (MultiplyFunc.new (.constVal 10 "A") (.constVal 5 "B") "M").derivative_over "B" =
      some 0 :=
  (fresh_multiplyFunc_derivative (.constVal 10 "A") (.constVal 5 "B") "M" "B"
    (Or.inr (by decide))).2

/-- C7: on the `main` tree, `compute_value` returns the name list
`["A", "B", "C", "D"]` with the value `7500`, and after that evaluation
`derivative_over "A"` returns `500` and `derivative_over "D"` returns
`300`. -/
theorem main_scenario :
    exFend.compute_value.1 = (["A", "B", "C", "D"], 7500)
    ∧ exFend.compute_value.2.derivative_over "A" = some 500
    ∧ exFend.compute_value.2.derivative_over "D" = some 300 := by
  refine ⟨?_, ?_, ?_⟩ <;>
    · simp [exFend, exF2, exF1, exA, exB, exC, exD, ConstVal.new, AddFunc.new,
        MultiplyFunc.new, Node.compute_value, Node.derivative_over,
        Node.has_node]
      norm_num

/-- C9: all three trait methods terminate on every finite tree: each is
structurally recursive, descending only into the node's two children, so
a call-depth budget equal to the tree's size already suffices for the
fuel-indexed variants to finish and agree with the total Lean functions
that embed the source. -/
theorem trait_methods_terminate (t : Node) (n : String) (f : Nat)
    (hf : t.size ≤ f) :
    Node.has_nodeF f t n = some (t.has_node n)
    ∧ Node.derivative_overF f t n = some (t.derivative_over n)
    ∧ Node.compute_valueF f t = some t.compute_value :=
  ⟨has_nodeF_eq t f hf n, derivative_overF_eq t f hf n, compute_valueF_eq t f hf⟩

/-- Witness for C9: a two-leaf Sum tree of size `3` with fuel `3`. -/
theorem trait_methods_terminate_witness :
    Node.has_nodeF 3 (.addFunc (.constVal 1 "A") (.constVal 2 "B") 0 0 "S") "B" =
      some ((Node.addFunc (.constVal 1 "A") (.constVal 2 "B") 0 0 "S").has_node "B")
    ∧ Node.derivative_overF 3 (.addFunc (.constVal 1 "A") (.constVal 2 "B") 0 0 "S") "B" =
      some ((Node.addFunc (.constVal 1 "A") (.constVal 2 "B") 0 0 "S").derivative_over "B")
    ∧ Node.compute_valueF 3 (.addFunc (.constVal 1 "A") (.constVal 2 "B") 0 0 "S") =
      some (Node.addFunc (.constVal 1 "A") (.constVal 2 "B") 0 0 "S").compute_value :=
  trait_methods_terminate (.addFunc (.constVal 1 "A") (.constVal 2 "B") 0 0 "S")
    "B" 3 (by decide)

/-- C10: a sequence of `derivative_over` and `has_node` calls — whether
they succeed or panic — leaves the tree exactly as it was: every leaf
value, every name and every cached `val1`/`val2` is unchanged.  And the
one mutating method, `compute_value`, writes only the caches: the
cache-free skeleton of the tree survives evaluation unchanged. -/
theorem reads_do_not_mutate (t : Node) (ops : List Op)
    (h : Op.eval ∉ ops) :
    applyOps t ops = t ∧ t.compute_value.2.strip = t.strip := by
  refine ⟨?_, strip_compute_value t⟩
  induction ops generalizing t with
  | nil => rfl
  | cons op rest ih =>
      have hop : op ≠ Op.eval := fun he => h (he ▸ List.mem_cons_self op rest)
      have hrest : Op.eval ∉ rest := fun he => h (List.mem_cons_of_mem op he)
      have hstep : applyOp t op = t := by
        cases op with
        | eval => exact absurd rfl hop
        | deriv m => rfl
        | has m => rfl
      calc applyOps t (op :: rest) = applyOps (applyOp t op) rest := rfl
        _ = applyOps t rest := by rw [hstep]
        _ = t := ih t hrest

/-- Witness for C10: a derivative query (which panics: `"Z"` is absent)
followed by a membership query leave the leaf unchanged. -/
theorem reads_do_not_mutate_witness :
    applyOps (Node.constVal 7 "A") [Op.deriv "Z", Op.has "A"] = Node.constVal 7 "A"
    ∧ (Node.constVal 7 "A").compute_value.2.strip = (Node.constVal 7 "A").strip :=
  reads_do_not_mutate (Node.constVal 7 "A") [Op.deriv "Z", Op.has "A"] (by decide)

end Backprop
